import Mathlib

/-!
Verification of the MicroUrl URL-shortening service
(`src/cpp-project/microurl`, versions ver3/ver4/ver6/ver7).

The development shallowly embeds the C++ code:

* `idToShortURL` / `shortURLtoID` — the short-code codec. The header
  `3rdparty/Shortener.h` is not part of the sources, so the codec is
  modelled from the specification (base62 over a fixed alphabet,
  canonical shortest encoding, decode failing on characters outside the
  alphabet).
* `extractSecret` — the code-extraction step
  `strMicro.substr(strMicro.find_last_of('/') + 1)` shared by
  `ClickUrl`, `Stats` (ver3) and `UrlToId` (ver7), with `npos`
  arithmetic on `size_t` made explicit.
* `makeMicroUrl`, `clickUrl`, `stats` — the ver3 `MicroUrlService`
  methods, with the member `std::map<long, UrlInfo> m_idToUrl`
  modelled as a key-sorted association list and every method written in
  explicit state-passing style.
* `visitUrls` and the `UrlFrequencyVisitor` of
  `ver6/tests/StatefulVisitTest.cpp`, whose iterator-walking loops are
  embedded with iterators as indices and out-of-range accesses made
  observable as `Option.none`.
-/

set_option maxRecDepth 4000

/-- The stored record: original URL, full short URL, click counter
(`UrlInfo` aggregate used throughout the C++ versions). -/
structure UrlInfo where
  OriginalUrl : String
  MicroUrl : String
  Clicks : Nat
  deriving DecidableEq, Repr

/-- Modelled from the spec: the fixed alphabet of the short-code codec
(`CodeCodec`, "typically base62"); `3rdparty/Shortener.h` is absent from
the sources. Lower-case letters, then upper-case, then digits. -/
def shortenerAlphabet : List Char :=
  "abcdefghijklmnopqrstuvwxyzABCDEFGHIJKLMNOPQRSTUVWXYZ0123456789".toList

/-- The base62 digit character for a value `d < 62`. -/
def digitChar62 (d : Nat) : Char :=
  shortenerAlphabet.getD d '?'

/-- Index of a character in a character list, `none` when absent. -/
def alphaIdx : List Char → Char → Option Nat
  | [], _ => none
  | a :: as, c => if c = a then some 0 else (alphaIdx as c).map (· + 1)

/-- Modelled from the spec: the numeric value of one code character;
`none` on characters outside the codec's alphabet (`InvalidCodeError`). -/
def decodeChar? (c : Char) : Option Nat :=
  alphaIdx shortenerAlphabet c

/-- Base62 digits of `n`, most significant first; the first argument is
structural fuel (`fuel ≥ n` suffices). `0` encodes to the empty digit
string, giving the canonical shortest encoding the spec requires. -/
def toDigitsAux : Nat → Nat → List Char
  | 0, _ => []
  | _ + 1, 0 => []
  | fuel + 1, n + 1 => toDigitsAux fuel ((n + 1) / 62) ++ [digitChar62 ((n + 1) % 62)]

/-- Modelled from the spec: `Ext::Shortener::idToShortURL`, the codec's
`Encode`: canonical base62 encoding of a non-negative id. -/
def idToShortURL (id : Nat) : String :=
  String.mk (toDigitsAux id id)

/-- Horner-style accumulation of base62 digit values; `none` as soon as a
character is outside the alphabet. -/
def decodeFrom : Nat → List Char → Option Nat
  | a, [] => some a
  | a, c :: cs =>
    match decodeChar? c with
    | some v => decodeFrom (a * 62 + v) cs
    | none => none

/-- Modelled from the spec: `Ext::Shortener::shortURLtoID`, the codec's
`Decode`: `none` (`InvalidCodeError`) when some character is outside the
alphabet. -/
def shortURLtoID (s : String) : Option Nat :=
  decodeFrom 0 s.toList

/-!
Code extraction (`MicroUrlService.cpp`, ver3 lines 32–33 / 41–42 and
ver7 lines 20–24): `strMicro.substr(strMicro.find_last_of('/') + 1)`.
`find_last_of` returns `std::string::npos = 2^64 - 1` (64-bit `size_t`)
when the character does not occur, and `npos + 1` wraps to `0`.
-/

/-- `std::string::npos` for a 64-bit `size_t`. -/
def npos : Nat := 2 ^ 64 - 1

/-- Index of the last occurrence of `c`, `none` when `c` does not occur
(the `Option`-valued core of `std::string::find_last_of`). -/
def findLastOf? : List Char → Char → Option Nat
  | [], _ => none
  | x :: xs, c =>
    match findLastOf? xs c with
    | some i => some (i + 1)
    | none => if x = c then some 0 else none

/-- `std::string::find_last_of` proper: the found index, or `npos`. -/
def posOrNpos (l : List Char) (c : Char) : Nat :=
  match findLastOf? l c with
  | some i => i
  | none => npos

/-- The shared code-extraction step: `substr(find_last_of('/') + 1)`,
with the `size_t` wrap-around of `npos + 1` made explicit. -/
def extractSecret (s : String) : String :=
  String.mk (s.toList.drop ((posOrNpos s.toList '/' + 1) % 2 ^ 64))

/-- `UrlToId` (ver7 `MicroUrlService.cpp`, lines 20–24): extract the code
and decode it. -/
def urlToId (s : String) : Option Nat :=
  shortURLtoID (extractSecret s)

/-!
The record store `std::map<long, UrlInfo> m_idToUrl`, modelled as a
key-sorted association list, and the ver3 `MicroUrlService` methods in
explicit state-passing style.
-/

/-- The service state: the contents of `m_idToUrl`. -/
abbrev MicroUrlStore := List (Nat × UrlInfo)

/-- `std::map::find` semantics: the value stored at `k`, if any. -/
def mapFind? : MicroUrlStore → Nat → Option UrlInfo
  | [], _ => none
  | (k', v') :: t, k => if k = k' then some v' else mapFind? t k

/-- `m_idToUrl[k] = v` (insert-or-assign), keeping the list key-sorted
the way `std::map` keeps its entries ordered. -/
def mapAssign : MicroUrlStore → Nat → UrlInfo → MicroUrlStore
  | [], k, v => [(k, v)]
  | (k', v') :: t, k, v =>
    if k < k' then (k, v) :: (k', v') :: t
    else if k = k' then (k, v) :: t
    else (k', v') :: mapAssign t k v

/-- `MakeMicroUrl` (ver3 lines 17–24): the generator's id is passed in
explicitly, since the generator is an injected external capability.
Encodes the id, composes the short URL, stores `{url, microUrl, 0}`. -/
def makeMicroUrl (s : MicroUrlStore) (id : Nat) (url : String) :
    MicroUrlStore × String :=
  let secret := idToShortURL id
  let microUrl := "https://micro.url/" ++ secret
  (mapAssign s id ⟨url, microUrl, 0⟩, microUrl)

/-- `ClickUrl` (ver3 lines 30–37): extract the code, decode, then
`m_idToUrl[id]` — `operator[]` default-inserts a value-initialized
`UrlInfo` (empty strings, 0 clicks) when the id is absent — increment
`Clicks` and return `OriginalUrl`. The decode-failure branch is
modelled from the spec (`InvalidCodeError`), `Shortener.h` being absent. -/
def clickUrl (s : MicroUrlStore) (microUrl : String) :
    MicroUrlStore × Option String :=
  match shortURLtoID (extractSecret microUrl) with
  | none => (s, none)
  | some id =>
    match (mapFind? s id).getD ⟨"", "", 0⟩ with
    | ⟨u0, m0, k⟩ => (mapAssign s id ⟨u0, m0, k + 1⟩, some u0)

/-- `Stats` (ver3 lines 39–44): same extraction and decode, then
`m_idToUrl.find(id)->second`; the method is `const`, so the state
component is returned untouched, and the end-iterator dereference of a
failed `find` appears as `none` in this total embedding. -/
def stats (s : MicroUrlStore) (microUrl : String) :
    MicroUrlStore × Option UrlInfo :=
  match shortURLtoID (extractSecret microUrl) with
  | none => (s, none)
  | some id => (s, mapFind? s id)

/-- `n` successive `ClickUrl` calls on the same micro URL. -/
def clickN : Nat → MicroUrlStore → String → MicroUrlStore
  | 0, s, _ => s
  | n + 1, s, u => clickN n (clickUrl s u).1 u

/-!
Visitation (ver6). The ver6 service header is not among the sources, so
`VisitUrls` is modelled from the spec: it delegates to the store's
`ForEach`, invoking the caller's visitor once per stored record, in the
store's own (key-sorted) order.
-/

/-- Modelled from the spec: `MicroUrlService::VisitUrls`, a fold of the
caller's stateful visitor over every stored record. -/
def visitUrls {σ : Type _} (s : MicroUrlStore) (f : σ → UrlInfo → σ) (a : σ) : σ :=
  s.foldl (fun acc p => f acc p.2) a

/-- A sequence of shorten calls; each request carries the id its
generator call produced. -/
def runShortens : List (Nat × String) → MicroUrlStore → MicroUrlStore
  | [], s => s
  | (id, url) :: rest, s => runShortens rest (makeMicroUrl s id url).1

/-- The record a shorten call with this id and url stores. -/
def mkRecord (id : Nat) (url : String) : UrlInfo :=
  ⟨url, "https://micro.url/" ++ idToShortURL id, 0⟩

/-- The stream of records a collecting visitor observes. -/
def visitedList (s : MicroUrlStore) : List UrlInfo :=
  visitUrls s (fun acc i => acc ++ [i]) []

/-!
`UrlFrequencyVisitor` (ver6/tests/StatefulVisitTest.cpp): a
`std::map<std::string, ptrdiff_t, std::less<>>` of URL frequencies,
modelled as a key-sorted association list; the byte-wise `std::string`
order and `compare(0, n, sv)` prefix test are given explicit char-list
embeddings. `MostPopular` and `StartingWith` walk map iterators; here an
iterator is an index into the sorted list, dereference is `List.get?`,
and any access outside the valid range surfaces as `none`.
-/

/-- Byte-wise lexicographic order of char lists (`std::string operator<`
restricted to the ASCII strings used here). -/
def listLt : List Char → List Char → Bool
  | [], [] => false
  | [], _ :: _ => true
  | _ :: _, [] => false
  | a :: as, b :: bs =>
    if a.toNat < b.toNat then true
    else if b.toNat < a.toNat then false
    else listLt as bs

/-- `std::string operator<` on whole strings. -/
def strLt (a b : String) : Bool := listLt a.toList b.toList

/-- `key.compare(0, sv.size(), sv) == 0`: `sv` is a prefix of `key`. -/
def listIsPrefix : List Char → List Char → Bool
  | [], _ => true
  | _ :: _, [] => false
  | a :: as, b :: bs => if a = b then listIsPrefix as bs else false

/-- The prefix test of `StartingWith`, on whole strings. -/
def strIsPrefix (sv key : String) : Bool := listIsPrefix sv.toList key.toList

/-- `m_freq.find`-like lookup. -/
def freqFind? : List (String × Int) → String → Option Int
  | [], _ => none
  | (k', v') :: t, k => if k = k' then some v' else freqFind? t k

/-- `m_freq[k] = v`: insert-or-assign keeping the list sorted by the
string order, the way `std::map` stores its entries. -/
def freqAssign : List (String × Int) → String → Int → List (String × Int)
  | [], k, v => [(k, v)]
  | (k', v') :: t, k, v =>
    if strLt k k' then (k, v) :: (k', v') :: t
    else if k = k' then (k, v) :: t
    else (k', v') :: freqAssign t k v

/-- The visitor body `m_freq[info.OriginalUrl]++` (`operator[]`
default-inserts `0`, then the count is incremented). -/
def freqVisit (m : List (String × Int)) (info : UrlInfo) : List (String × Int) :=
  freqAssign m info.OriginalUrl ((freqFind? m info.OriginalUrl).getD 0 + 1)

/-- The `MostPopular` loop. `maxIdx` and `curr` are the iterators
`maxElemIt` and `curr`; each round first runs `++curr`, then compares
against `end`, then dereferences both iterators. The fuel argument is
structural bookkeeping only: `l.length + 1` rounds always suffice.
`none` records an access outside the valid range. -/
def mpLoop (l : List (String × Int)) : Nat → Nat → Nat → Option Nat
  | 0, _, _ => none
  | fuel + 1, maxIdx, curr =>
    if curr + 1 = l.length then some maxIdx
    else
      match l.get? (curr + 1), l.get? maxIdx with
      | some c, some m => mpLoop l fuel (if m.2 < c.2 then curr + 1 else maxIdx) (curr + 1)
      | _, _ => none

/-- `UrlFrequencyVisitor::MostPopular`: both iterators start at `begin`,
the loop advances `curr` before each comparison with `end`, and the
guarded final dereference returns the key of the maximal element (or the
empty string when `maxElemIt == end`). `none` means the run performed an
access outside the valid iterator range. -/
def mostPopular (l : List (String × Int)) : Option String :=
  match mpLoop l (l.length + 1) 0 0 with
  | none => none
  | some i => if i = l.length then some "" else (l.get? i).map Prod.fst

/-- `std::map::lower_bound`: index of the first entry whose key is not
less than `sv` (`l.length` when there is none). -/
def lowerBoundIdx (l : List (String × Int)) (sv : String) : Nat :=
  l.findIdx (fun p => !strLt p.1 sv)

/-- The `StartingWith` loop. `b` is the frozen iterator `beginPrefix`
(the loop's own condition `beginPrefix != end` stays true whenever the
loop is entered, since only `first` advances); each round dereferences
`first`, so `first` reaching `end` is an access outside the valid range
(`none`). On a key failing the prefix test the loop breaks with
`distance(beginPrefix, first)`. -/
def swLoop (l : List (String × Int)) (sv : String) (b : Nat) : Nat → Nat → Option Nat
  | 0, _ => none
  | fuel + 1, first =>
    match l.get? first with
    | none => none
    | some p => if strIsPrefix sv p.1 then swLoop l sv b fuel (first + 1) else some (first - b)

/-- `UrlFrequencyVisitor::StartingWith`: when `lower_bound` is already
`end` the loop body never runs and the distance is `0`; otherwise the
loop walks `first` from `lower_bound`. -/
def startingWith (l : List (String × Int)) (sv : String) : Option Nat :=
  if lowerBoundIdx l sv = l.length then some 0
  else swLoop l sv (lowerBoundIdx l sv) (l.length + 1) (lowerBoundIdx l sv)

/-!
The concrete visitation scenario of
`ver6/tests/StatefulVisitTest.cpp` ("Using Visit to count the most
popular urls"): 5 shortenings of google, 10 of italiancpp, 8 of
coding-gym, ids issued by a fresh counter.
-/

/-- The 23 shorten requests of the most-popular test, with counter ids. -/
def c8Requests : List (Nat × String) :=
  (List.range 5).map (fun i => (i, "http://google.com")) ++
  (List.range 10).map (fun i => (i + 5, "http://italiancpp.org")) ++
  (List.range 8).map (fun i => (i + 15, "http://coding-gym.org"))

/-- The frequency map the visitor holds after visiting that store. -/
def c8Freq : List (String × Int) :=
  visitUrls (runShortens c8Requests []) freqVisit []

/-!
## Theorems
-/

theorem decodeChar?_digitChar62 : ∀ d : Nat, d < 62 → decodeChar? (digitChar62 d) = some d := by
  decide

theorem decodeFrom_append (l₁ l₂ : List Char) (a : Nat) :
    decodeFrom a (l₁ ++ l₂) =
      match decodeFrom a l₁ with
      | some b => decodeFrom b l₂
      | none => none := by
  induction l₁ generalizing a with
  | nil => simp [decodeFrom]
  | cons c cs ih =>
    simp only [List.cons_append, decodeFrom]
    cases decodeChar? c with
    | some v => exact ih (a * 62 + v)
    | none => rfl

theorem decodeFrom_toDigitsAux (fuel : Nat) :
    ∀ n a : Nat, n ≤ fuel →
      decodeFrom a (toDigitsAux fuel n) =
        some (a * 62 ^ (toDigitsAux fuel n).length + n) := by
  induction fuel with
  | zero =>
    intro n a hn
    interval_cases n
    simp [toDigitsAux, decodeFrom]
  | succ fuel ih =>
    intro n a hn
    match n with
    | 0 => simp [toDigitsAux, decodeFrom]
    | m + 1 =>
      have hdiv : (m + 1) / 62 ≤ fuel := by
        have h1 : (m + 1) / 62 < m + 1 := Nat.div_lt_self (Nat.succ_pos m) (by norm_num)
        omega
      rw [toDigitsAux, decodeFrom_append]
      rw [ih ((m + 1) / 62) a hdiv]
      have hmod : (m + 1) % 62 < 62 := Nat.mod_lt _ (by norm_num)
      simp only [decodeFrom, decodeChar?_digitChar62 _ hmod]
      rw [List.length_append, List.length_cons, List.length_nil]
      have hdm : 62 * ((m + 1) / 62) + (m + 1) % 62 = m + 1 := Nat.div_add_mod (m + 1) 62
      congr 1
      have : 62 ^ ((toDigitsAux fuel ((m + 1) / 62)).length + (0 + 1)) =
          62 ^ (toDigitsAux fuel ((m + 1) / 62)).length * 62 := by
        rw [Nat.zero_add, pow_succ]
      rw [this]
      ring_nf
      omega

/-- Round trip of the modelled codec: decoding the canonical encoding of
any non-negative id restores the id. -/
theorem shortURLtoID_idToShortURL (n : Nat) : shortURLtoID (idToShortURL n) = some n := by
  have h := decodeFrom_toDigitsAux n n 0 (Nat.le_refl n)
  simp only [shortURLtoID, idToShortURL]
  have hs : (String.mk (toDigitsAux n n)).toList = toDigitsAux n n := rfl
  rw [hs, h, Nat.zero_mul, Nat.zero_add]

/-- Every character of a canonical encoding lies in the codec alphabet. -/
theorem toDigitsAux_mem_alphabet (fuel : Nat) :
    ∀ n c, c ∈ toDigitsAux fuel n → c ∈ shortenerAlphabet := by
  induction fuel with
  | zero =>
    intro n c hc
    simp [toDigitsAux] at hc
  | succ fuel ih =>
    intro n c hc
    match n with
    | 0 => simp [toDigitsAux] at hc
    | m + 1 =>
      rw [toDigitsAux, List.mem_append] at hc
      rcases hc with hc | hc
      · exact ih _ _ hc
      · rw [List.mem_singleton] at hc
        subst hc
        have hmod : (m + 1) % 62 < 62 := Nat.mod_lt _ (by norm_num)
        have hlen : shortenerAlphabet.length = 62 := by decide
        unfold digitChar62
        rw [List.getD_eq_getElem _ _ (by omega)]
        exact List.getElem_mem _

theorem findLastOf?_eq_none (c : Char) :
    ∀ l : List Char, c ∉ l → findLastOf? l c = none := by
  intro l hl
  induction l with
  | nil => rfl
  | cons x xs ih =>
    rw [List.mem_cons, not_or] at hl
    rw [findLastOf?, ih hl.2, if_neg (fun h => hl.1 h.symm)]

theorem findLastOf?_append_of_none (c : Char) (l₁ l₂ : List Char)
    (h : findLastOf? l₂ c = none) :
    findLastOf? (l₁ ++ l₂) c = findLastOf? l₁ c := by
  induction l₁ with
  | nil => simpa using h
  | cons x xs ih => rw [List.cons_append, findLastOf?, ih, findLastOf?]

/-- A string with no slash is passed whole to the decoder: `find_last_of`
returns `npos` and `npos + 1` wraps to index `0`. -/
theorem extractSecret_no_slash (s : String) (h : '/' ∉ s.toList) :
    extractSecret s = s := by
  unfold extractSecret posOrNpos
  rw [findLastOf?_eq_none _ _ h]
  have hmod : (npos + 1) % 2 ^ 64 = 0 := by decide
  rw [hmod, List.drop_zero]
  cases s
  rfl

/-- Extraction after the fixed base: the code is everything after the
last `/`, provided the code itself has no slash. -/
theorem extractSecret_base (cs : List Char) (h : '/' ∉ cs) :
    extractSecret ("https://micro.url/" ++ String.mk cs) = String.mk cs := by
  unfold extractSecret posOrNpos
  have hdata : ("https://micro.url/" ++ String.mk cs).toList =
      "https://micro.url/".toList ++ cs := rfl
  rw [hdata, findLastOf?_append_of_none _ _ _ (findLastOf?_eq_none _ _ h)]
  have hfind : findLastOf? "https://micro.url/".toList '/' = some 17 := by decide
  rw [hfind]
  have hmod : (17 + 1) % 2 ^ 64 = 18 := by decide
  rw [hmod]
  have hlen : ("https://micro.url/".toList).length = 18 := by decide
  rw [← hlen, List.drop_left]

/-- The secret of a freshly made micro URL is the encoded id. -/
theorem extractSecret_micro (id : Nat) :
    extractSecret ("https://micro.url/" ++ idToShortURL id) = idToShortURL id := by
  have hns : '/' ∉ toDigitsAux id id := by
    intro hmem
    have := toDigitsAux_mem_alphabet id id '/' hmem
    revert this
    decide
  exact extractSecret_base (toDigitsAux id id) hns

theorem mapFind?_mapAssign_self (l : MicroUrlStore) (k : Nat) (v : UrlInfo) :
    mapFind? (mapAssign l k v) k = some v := by
  induction l with
  | nil => simp [mapAssign, mapFind?]
  | cons p t ih =>
    obtain ⟨k', v'⟩ := p
    by_cases hlt : k < k'
    · simp [mapAssign, hlt, mapFind?]
    · by_cases heq : k = k'
      · simp [mapAssign, hlt, heq, mapFind?]
      · simp [mapAssign, hlt, heq, mapFind?, ih]

/-- One `ClickUrl` on a stored record: the counter advances by one and
the original URL comes back. -/
theorem clickUrl_found (s : MicroUrlStore) (id : Nat) (info : UrlInfo)
    (micro : String)
    (hext : extractSecret micro = idToShortURL id)
    (hfind : mapFind? s id = some info) :
    clickUrl s micro =
      (mapAssign s id ⟨info.OriginalUrl, info.MicroUrl, info.Clicks + 1⟩,
        some info.OriginalUrl) := by
  unfold clickUrl
  rw [hext, shortURLtoID_idToShortURL]
  obtain ⟨u0, m0, k⟩ := info
  simp [hfind]

/-- The click counter after `n` clicks on a stored record. -/
theorem mapFind?_clickN (n : Nat) :
    ∀ (s : MicroUrlStore) (id k : Nat) (u0 m0 : String) (micro : String),
      extractSecret micro = idToShortURL id →
      mapFind? s id = some ⟨u0, m0, k⟩ →
      mapFind? (clickN n s micro) id = some ⟨u0, m0, k + n⟩ := by
  induction n with
  | zero =>
    intro s id k u0 m0 micro _ hfind
    simpa using hfind
  | succ n ih =>
    intro s id k u0 m0 micro hext hfind
    rw [clickN, clickUrl_found s id ⟨u0, m0, k⟩ micro hext hfind]
    have hstep := mapFind?_mapAssign_self s id ⟨u0, m0, k + 1⟩
    have := ih (mapAssign s id ⟨u0, m0, k + 1⟩) id (k + 1) u0 m0 micro hext hstep
    rw [this]
    congr 2
    omega

theorem stats_fst (s : MicroUrlStore) (u : String) : (stats s u).1 = s := by
  unfold stats
  cases shortURLtoID (extractSecret u) <;> rfl

theorem visitUrls_collect (s : MicroUrlStore) :
    ∀ a : List UrlInfo, visitUrls s (fun acc i => acc ++ [i]) a = a ++ s.map Prod.snd := by
  induction s with
  | nil => intro a; simp [visitUrls]
  | cons p t ih =>
    intro a
    simp only [visitUrls, List.foldl_cons, List.map_cons] at *
    rw [ih (a ++ [p.2])]
    simp

theorem mapFind?_eq_none_iff (l : MicroUrlStore) (k : Nat) :
    mapFind? l k = none ↔ k ∉ l.map Prod.fst := by
  induction l with
  | nil => simp [mapFind?]
  | cons p t ih =>
    obtain ⟨k', v'⟩ := p
    by_cases h : k = k' <;> simp [mapFind?, h, ih]

theorem mapAssign_perm (l : MicroUrlStore) (k : Nat) (v : UrlInfo)
    (h : mapFind? l k = none) : (mapAssign l k v).Perm ((k, v) :: l) := by
  induction l with
  | nil => simp [mapAssign]
  | cons p t ih =>
    obtain ⟨k', v'⟩ := p
    rw [mapFind?] at h
    by_cases heq : k = k'
    · simp [heq] at h
    · rw [if_neg heq] at h
      by_cases hlt : k < k'
      · rw [mapAssign, if_pos hlt]
      · rw [mapAssign, if_neg hlt, if_neg heq]
        exact ((ih h).cons (k', v')).trans (List.Perm.swap (k, v) (k', v') t)

theorem runShortens_perm :
    ∀ (reqs : List (Nat × String)) (s : MicroUrlStore),
      (reqs.map Prod.fst).Nodup →
      (∀ k ∈ reqs.map Prod.fst, mapFind? s k = none) →
      (runShortens reqs s).Perm
        (reqs.map (fun p => (p.1, mkRecord p.1 p.2)) ++ s) := by
  intro reqs
  induction reqs with
  | nil => intro s _ _; simp [runShortens]
  | cons r rest ih =>
    intro s hnodup hfresh
    obtain ⟨id, url⟩ := r
    rw [List.map_cons, List.nodup_cons] at hnodup
    have hid : mapFind? s id = none := hfresh id (by simp)
    have hperm1 : (mapAssign s id (mkRecord id url)).Perm ((id, mkRecord id url) :: s) :=
      mapAssign_perm s id (mkRecord id url) hid
    have hfresh' : ∀ k ∈ rest.map Prod.fst, mapFind? (mapAssign s id (mkRecord id url)) k = none := by
      intro k hk
      rw [mapFind?_eq_none_iff]
      intro hmem
      have hmem' : k ∈ (id, mkRecord id url).1 :: s.map Prod.fst := by
        have := hperm1.map Prod.fst
        exact this.mem_iff.mp hmem
      rcases List.mem_cons.mp hmem' with hmem' | hmem'
      · exact hnodup.1 (hmem' ▸ hk)
      · exact (mapFind?_eq_none_iff s k).mp (hfresh k (List.mem_cons_of_mem _ hk)) hmem'
    have hrun : runShortens ((id, url) :: rest) s =
        runShortens rest (mapAssign s id (mkRecord id url)) := rfl
    rw [hrun]
    refine ((ih _ hnodup.2 hfresh').trans ?_)
    refine (List.Perm.append_left _ hperm1).trans ?_
    rw [List.map_cons]
    exact List.perm_middle

/-- Visitation completeness over a run of shorten calls from the empty
store: the collecting visitor sees exactly one record per request. -/
theorem visitedList_runShortens (reqs : List (Nat × String))
    (hnodup : (reqs.map Prod.fst).Nodup) :
    (visitedList (runShortens reqs [])).Perm
      (reqs.map (fun p => mkRecord p.1 p.2)) := by
  have h := runShortens_perm reqs [] hnodup (by intro k _; rfl)
  rw [List.append_nil] at h
  have hmap := h.map Prod.snd
  rw [visitedList, visitUrls_collect, List.nil_append]
  rw [List.map_map] at hmap
  exact hmap

theorem mpLoop_some_lt (l : List (String × Int)) :
    ∀ (fuel maxIdx curr : Nat), maxIdx < l.length → curr < l.length →
      l.length - curr ≤ fuel →
      ∃ i, mpLoop l fuel maxIdx curr = some i ∧ i < l.length := by
  intro fuel
  induction fuel with
  | zero => intro maxIdx curr h1 h2 h3; omega
  | succ fuel ih =>
    intro maxIdx curr h1 h2 h3
    rw [mpLoop]
    by_cases hc : curr + 1 = l.length
    · exact ⟨maxIdx, by rw [if_pos hc], h1⟩
    · have hlt : curr + 1 < l.length := by omega
      rw [if_neg hc, List.get?_eq_get hlt, List.get?_eq_get h1]
      exact ih _ (curr + 1) (by split <;> omega) hlt (by omega)

theorem swLoop_isSome (l : List (String × Int)) (sv : String) (b : Nat) :
    ∀ (fuel first j : Nat) (hj : j < l.length), first ≤ j →
      strIsPrefix sv (l.get ⟨j, hj⟩).1 = false →
      j + 1 - first ≤ fuel →
      (swLoop l sv b fuel first).isSome := by
  intro fuel
  induction fuel with
  | zero => intro first j hj h1 _ h3; omega
  | succ fuel ih =>
    intro first j hj h1 h2 h3
    have hfl : first < l.length := lt_of_le_of_lt h1 hj
    rw [swLoop, List.get?_eq_get hfl]
    by_cases hp : strIsPrefix sv (l.get ⟨first, hfl⟩).1 = true
    · have hne : first ≠ j := by
        intro heq
        subst heq
        rw [hp] at h2
        exact absurd h2 (by simp)
      simp only [hp, if_true]
      exact ih (first + 1) j hj (by omega) h2 (by omega)
    · rw [Bool.not_eq_true] at hp
      have hg : (l.get ⟨first, hfl⟩) = l[first] := rfl
      rw [hg] at hp
      simp [hp]

/-!
## The claims
-/

/-- Claim C1: for every (non-empty) URL string `u`, resolving the short
URL returned by shortening `u` yields `u` back —
`ClickUrl (MakeMicroUrl u)` returns `u`'s original URL, whatever the
prior store contents and whatever id the generator issued. -/
theorem shorten_then_resolve (s : MicroUrlStore) (id : Nat) (u : String)
    (h : u ≠ "") :
    (clickUrl (makeMicroUrl s id u).1 (makeMicroUrl s id u).2).2 = some u := by
  have hmk1 : (makeMicroUrl s id u).1 =
      mapAssign s id ⟨u, "https://micro.url/" ++ idToShortURL id, 0⟩ := rfl
  have hmk2 : (makeMicroUrl s id u).2 = "https://micro.url/" ++ idToShortURL id := rfl
  rw [hmk1, hmk2,
    clickUrl_found _ id ⟨u, "https://micro.url/" ++ idToShortURL id, 0⟩ _
      (extractSecret_micro id)
      (mapFind?_mapAssign_self s id ⟨u, "https://micro.url/" ++ idToShortURL id, 0⟩)]

/-- Witness for C1 at a concrete input. -/
theorem shorten_then_resolve_witness :
    (clickUrl (makeMicroUrl [] 7 "https://example.org").1
      (makeMicroUrl [] 7 "https://example.org").2).2 = some "https://example.org" :=
  shorten_then_resolve [] 7 "https://example.org" (by decide)

/-- Claim C2 counterexample: the code `"b"` is alphabet-valid and
decodes to id `1`, which the empty store never issued; `ClickUrl` does
not fail with a not-found error — `operator[]` default-inserts an empty
record, bumps its counter to 1, and returns the empty string. -/
theorem clickUrl_unissued_counterexample :
    shortURLtoID "b" = some 1 ∧ mapFind? ([] : MicroUrlStore) 1 = none ∧
    clickUrl [] "https://micro.url/b" = ([(1, ⟨"", "", 1⟩)], some "") := by
  refine ⟨by decide, rfl, by decide⟩

/-- Claim C2 (amended): `ClickUrl` of a syntactically valid but
unissued code does not signal not-found; it default-inserts a
value-initialized record under the decoded id, increments its counter
to 1, and returns the empty original URL. -/
theorem clickUrl_unissued_default_inserts (s : MicroUrlStore) (u : String)
    (id : Nat) (h1 : shortURLtoID (extractSecret u) = some id)
    (h2 : mapFind? s id = none) :
    clickUrl s u = (mapAssign s id ⟨"", "", 1⟩, some "") := by
  unfold clickUrl
  rw [h1]
  simp [h2]

/-- Witness for amended C2 at a concrete input. -/
theorem clickUrl_unissued_default_inserts_witness :
    clickUrl [] "https://micro.url/c" = (mapAssign [] 2 ⟨"", "", 1⟩, some "") :=
  clickUrl_unissued_default_inserts [] "https://micro.url/c" 2 (by decide) rfl

/-- Claim C3 counterexample: on `"https://micro.url/d"` the lookup for
the decoded id `3` fails on the empty store, yet `ClickUrl` mutates the
store (a record is inserted). -/
theorem resolve_miss_mutates_counterexample :
    mapFind? ([] : MicroUrlStore) 3 = none ∧
    (clickUrl [] "https://micro.url/d").1 ≠ ([] : MicroUrlStore) := by
  refine ⟨rfl, by decide⟩

/-- Claim C3 (amended): `Stats` never mutates the store and `ClickUrl`
leaves the store unchanged when decoding fails outright; but when the
code decodes to an id that is not stored, `ClickUrl` does mutate the
store, inserting a default record with one click. -/
theorem resolve_stats_mutation_amended :
    (∀ (s : MicroUrlStore) (u : String),
      shortURLtoID (extractSecret u) = none → clickUrl s u = (s, none)) ∧
    (∀ (s : MicroUrlStore) (u : String), (stats s u).1 = s) ∧
    (∀ (s : MicroUrlStore) (u : String) (id : Nat),
      shortURLtoID (extractSecret u) = some id → mapFind? s id = none →
      (clickUrl s u).1 = mapAssign s id ⟨"", "", 1⟩) := by
  refine ⟨?_, fun s u => stats_fst s u, ?_⟩
  · intro s u h
    unfold clickUrl
    rw [h]
  · intro s u id h1 h2
    unfold clickUrl
    rw [h1]
    simp [h2]

/-- Witness for amended C3 at a concrete input. -/
theorem resolve_stats_mutation_amended_witness :
    clickUrl [] "!!!" = ([], none) :=
  resolve_stats_mutation_amended.1 [] "!!!" (by decide)

/-- Claim C4: the record created by a shorten call starts with 0 clicks,
and after `n` `ClickUrl` calls on its short URL, `Stats` of that short
URL reports exactly `n` clicks. -/
theorem click_accounting (s : MicroUrlStore) (id : Nat) (u : String) (n : Nat) :
    mapFind? (makeMicroUrl s id u).1 id = some ⟨u, (makeMicroUrl s id u).2, 0⟩ ∧
    (stats (clickN n (makeMicroUrl s id u).1 (makeMicroUrl s id u).2)
        (makeMicroUrl s id u).2).2 = some ⟨u, (makeMicroUrl s id u).2, n⟩ := by
  have hmk2 : (makeMicroUrl s id u).2 = "https://micro.url/" ++ idToShortURL id := rfl
  have hext : extractSecret (makeMicroUrl s id u).2 = idToShortURL id := by
    rw [hmk2]; exact extractSecret_micro id
  have h0 : mapFind? (makeMicroUrl s id u).1 id =
      some ⟨u, (makeMicroUrl s id u).2, 0⟩ :=
    mapFind?_mapAssign_self s id ⟨u, (makeMicroUrl s id u).2, 0⟩
  refine ⟨h0, ?_⟩
  have hn := mapFind?_clickN n (makeMicroUrl s id u).1 id 0 u
    (makeMicroUrl s id u).2 (makeMicroUrl s id u).2 hext h0
  simp only [stats, hext, shortURLtoID_idToShortURL]
  rw [hn]
  norm_num

/-- Claim C5: `Stats` is read-only — it returns the store exactly as it
received it, so no record is added, removed or modified. -/
theorem stats_preserves_state (s : MicroUrlStore) (u : String) :
    (stats s u).1 = s :=
  stats_fst s u

/-- Claim C6 counterexample: id `5` is already stored; `MakeMicroUrl`
with the same id does not fail with a duplicate-id error — it silently
replaces the stored record. -/
theorem duplicate_insert_counterexample :
    mapFind? [(5, ⟨"https://old.example", "https://micro.url/f", 7⟩)] 5 =
      some ⟨"https://old.example", "https://micro.url/f", 7⟩ ∧
    (makeMicroUrl [(5, ⟨"https://old.example", "https://micro.url/f", 7⟩)]
        5 "https://new.example").1 =
      [(5, ⟨"https://new.example", "https://micro.url/f", 0⟩)] := by
  refine ⟨rfl, by decide⟩

/-- Claim C6 (amended): inserting a record under an id already present
does not fail and does not keep the old record — the shorten call
returns its short URL normally and the store ends up holding the fresh
record under that id. -/
theorem duplicate_insert_overwrites (s : MicroUrlStore) (id : Nat)
    (old : UrlInfo) (url : String) (h : mapFind? s id = some old) :
    (makeMicroUrl s id url).2 = "https://micro.url/" ++ idToShortURL id ∧
    mapFind? (makeMicroUrl s id url).1 id =
      some ⟨url, (makeMicroUrl s id url).2, 0⟩ :=
  ⟨rfl, mapFind?_mapAssign_self s id ⟨url, (makeMicroUrl s id url).2, 0⟩⟩

/-- Witness for amended C6 at a concrete input. -/
theorem duplicate_insert_overwrites_witness :
    (makeMicroUrl [(5, ⟨"a", "m", 7⟩)] 5 "b").2 =
      "https://micro.url/" ++ idToShortURL 5 ∧
    mapFind? (makeMicroUrl [(5, ⟨"a", "m", 7⟩)] 5 "b").1 5 =
      some ⟨"b", (makeMicroUrl [(5, ⟨"a", "m", 7⟩)] 5 "b").2, 0⟩ :=
  duplicate_insert_overwrites [(5, ⟨"a", "m", 7⟩)] 5 ⟨"a", "m", 7⟩ "b" rfl

/-- Claim C7: the codec round trip — decoding the encoding of any
non-negative id restores the id. -/
theorem decode_encode_roundtrip (id : Nat) :
    shortURLtoID (idToShortURL id) = some id :=
  shortURLtoID_idToShortURL id

/-- Claim C8: visitation completeness — any visitor processes exactly
the store's record stream; over a run of shorten calls with fresh ids
that stream is a permutation of the records ever shortened (one each,
none skipped, none repeated); and on the concrete 5×google /
10×italiancpp / 8×coding-gym scenario the frequency-counting visitor
reports italiancpp as most popular. -/
theorem visit_exactly_once :
    (∀ (σ : Type) (f : σ → UrlInfo → σ) (a : σ) (s : MicroUrlStore),
      visitUrls s f a = (visitedList s).foldl f a) ∧
    (∀ reqs : List (Nat × String), (reqs.map Prod.fst).Nodup →
      (visitedList (runShortens reqs [])).Perm
        (reqs.map (fun p => mkRecord p.1 p.2))) ∧
    mostPopular c8Freq = some "http://italiancpp.org" := by
  refine ⟨?_, fun reqs h => visitedList_runShortens reqs h, by decide⟩
  intro σ f a s
  rw [visitedList, visitUrls_collect, List.nil_append, visitUrls, List.foldl_map]

/-- Witness for C8 at a concrete run. -/
theorem visit_exactly_once_witness :
    (visitedList (runShortens [(0, "https://a.example"), (1, "https://b.example")] [])).Perm
      [mkRecord 0 "https://a.example", mkRecord 1 "https://b.example"] :=
  visit_exactly_once.2.1 [(0, "https://a.example"), (1, "https://b.example")] (by decide)

/-- Claim C9: on an input with no `/`, `find_last_of` reports `npos`,
`npos + 1` wraps to index 0, and the whole input becomes the code: the
extraction step returns the input itself, `UrlToId` decodes the whole
input, and `ClickUrl`/`Stats` behave exactly as on a well-formed short
URL whose code is that input. -/
theorem no_slash_whole_string_is_code (s : String) (h : '/' ∉ s.toList) :
    findLastOf? s.toList '/' = none ∧
    extractSecret s = s ∧
    urlToId s = shortURLtoID s ∧
    (∀ st : MicroUrlStore,
      clickUrl st s = clickUrl st ("https://micro.url/" ++ s) ∧
      stats st s = stats st ("https://micro.url/" ++ s)) := by
  have h1 : findLastOf? s.toList '/' = none := findLastOf?_eq_none '/' s.toList h
  have h2 : extractSecret s = s := extractSecret_no_slash s h
  have h3 : extractSecret ("https://micro.url/" ++ s) = s := by
    have hmk : String.mk s.toList = s := by cases s; rfl
    calc extractSecret ("https://micro.url/" ++ s)
        = extractSecret ("https://micro.url/" ++ String.mk s.toList) := by rw [hmk]
      _ = String.mk s.toList := extractSecret_base s.toList h
      _ = s := hmk
  refine ⟨h1, h2, by rw [urlToId, h2], ?_⟩
  intro st
  constructor
  · unfold clickUrl
    rw [h2, h3]
  · unfold stats
    rw [h2, h3]

/-- Witness for C9 at a concrete input. -/
theorem no_slash_whole_string_is_code_witness :
    extractSecret "abc" = "abc" ∧ urlToId "abc" = shortURLtoID "abc" :=
  ⟨(no_slash_whole_string_is_code "abc" (by decide)).2.1,
    (no_slash_whole_string_is_code "abc" (by decide)).2.2.1⟩

/-- Claim C10 counterexample: the two cases the claim singles out do
reach accesses outside the valid iterator range. On the empty frequency
map, `MostPopular`'s `++curr` advances past the end and the subsequent
dereference is out of range (`none`). On the map `{"ab" ↦ 1}` with
query `"a"`, the lower bound is entry 0 and every key from it to the
end matches the prefix, so `StartingWith`'s cursor dereferences the end
iterator (`none`). -/
theorem visitor_oob_counterexample :
    mostPopular ([] : List (String × Int)) = none ∧
    startingWith [("ab", (1 : Int))] "a" = none ∧
    lowerBoundIdx [("ab", (1 : Int))] "a" = 0 ∧
    strIsPrefix "a" "ab" = true := by
  refine ⟨by decide, by decide, by decide, by decide⟩

/-- Claim C10 (amended): `MostPopular` stays within the valid iterator
range whenever the frequency map is nonempty; `StartingWith` stays
within range whenever its lower bound is already the end, or some entry
at or after the lower bound fails the prefix test. (The original
claim's two distinguished cases — the empty map, and every key from
the lower bound matching — are exactly the ones that go out of range.) -/
theorem visitor_in_range_amended :
    (∀ l : List (String × Int), l ≠ [] → (mostPopular l).isSome) ∧
    (∀ (l : List (String × Int)) (sv : String),
      lowerBoundIdx l sv = l.length → startingWith l sv = some 0) ∧
    (∀ (l : List (String × Int)) (sv : String) (j : Nat) (hj : j < l.length),
      strIsPrefix sv (l.get ⟨j, hj⟩).1 = false → lowerBoundIdx l sv ≤ j →
      (startingWith l sv).isSome) := by
  refine ⟨?_, ?_, ?_⟩
  · intro l hl
    have hpos : 0 < l.length := List.length_pos.mpr hl
    obtain ⟨i, heq, hi⟩ := mpLoop_some_lt l (l.length + 1) 0 0 hpos hpos (by omega)
    have hne : ¬ i = l.length := by omega
    simp only [mostPopular, heq, hne, if_false, List.get?_eq_get hi]
    rfl
  · intro l sv hb
    rw [startingWith, if_pos hb]
  · intro l sv j hj hpre hlb
    have hbne : lowerBoundIdx l sv ≠ l.length := by omega
    rw [startingWith, if_neg hbne]
    exact swLoop_isSome l sv (lowerBoundIdx l sv) (l.length + 1)
      (lowerBoundIdx l sv) j hj hlb hpre (by omega)

/-- Witness for amended C10 at concrete inputs. -/
theorem visitor_in_range_amended_witness :
    (mostPopular [("x", (3 : Int))]).isSome ∧
    (startingWith [("ab", (1 : Int))] "aa").isSome :=
  ⟨visitor_in_range_amended.1 [("x", 3)] (by decide),
    visitor_in_range_amended.2.2 [("ab", 1)] "aa" 0 (by decide) (by decide) (by decide)⟩
